import Mathlib

/-!
Verification of the neuro-reversi decision core.

This file shallowly embeds the TypeScript sources of the repository:
  * `src/services/gameLogic.ts` — board rules (legality, move application,
    scoring, termination);
  * `src/services/learningService.ts` and the IndexedDB variant of the same
    service (`pruneMemory`/`saveBrain`) — evaluator, minimax search,
    best-move selection, weight adaptation, memory pruning.

Modelling conventions:
  * a JS `Disk` (`'Black' | 'White' | null`) becomes `Option Player`, with
    `none` for `null`;
  * the 8×8 `Board` array becomes `Fin 8 → Fin 8 → Option Player`;
  * JS numbers become `ℚ`.  Every numeric value the embedded code produces
    is a multiple of 1/4 with magnitude far below 2^50, so IEEE doubles are
    exact on them and `ℚ` is a faithful model;
  * `-Infinity`/`Infinity` sentinels of the search become `⊥`/`⊤` in
    `WithBot (WithTop ℚ)`;
  * the JS `while` walks along a board direction are written with a fuel
    argument; fuel 8 is enough because a ray of an 8×8 board visits at most
    8 in-bounds cells;
  * `Math.random() > 0.5` draws are threaded as an explicit stream
    `coins : Nat → Bool`, consumed exactly where the source consults the
    generator.
-/

namespace NeuroReversi

/-- A placed disk colour.  JS `'Black' | 'White'`. -/
inductive Player
  | black
  | white
deriving DecidableEq, Repr

/-- Opponent colour: `color === 'Black' ? 'White' : 'Black'`. -/
def Player.opp : Player → Player
  | .black => .white
  | .white => .black

/-- A board cell, `none` is the JS `null` (empty cell). -/
abbrev Cell := Option Player

/-- An 8×8 board (`src/types.ts`: `Board = Disk[][]`, always 8×8). -/
abbrev Board := Fin 8 → Fin 8 → Cell

/-- An 8×8 positional weight matrix (`LearningData.weights`). -/
abbrev Weights := Fin 8 → Fin 8 → ℚ

/-- A pair (row, col); `src/types.ts` `Coordinate`/`Move` (identical shapes). -/
structure Coordinate where
  row : Fin 8
  col : Fin 8
deriving DecidableEq, Repr

/-- The 8 scan directions of `gameLogic.ts` (`DIRECTIONS`), in source order. -/
def directions : List (Int × Int) :=
  [(-1, 0), (1, 0), (0, -1), (0, 1), (-1, -1), (-1, 1), (1, -1), (1, 1)]

/-- Bounds-checked read at integer coordinates: `none` when the position is
off the board (the JS loops test `r >= 0 && r < BOARD_SIZE && ...` before
reading), otherwise the cell content. -/
def cellI (b : Board) (r c : Int) : Option Cell :=
  if h : 0 ≤ r ∧ r < 8 ∧ 0 ≤ c ∧ c < 8 then
    some (b ⟨r.toNat, by omega⟩ ⟨c.toNat, by omega⟩)
  else none

/-- Write at integer coordinates (no-op off the board; the embedded code only
ever writes in-bounds positions). -/
def setCellI (b : Board) (r c : Int) (v : Cell) : Board :=
  fun i j => if (i.val : Int) = r ∧ (j.val : Int) = c then v else b i j

/-- Source `createInitialBoard` of `gameLogic.ts`: centre 2×2 pattern. -/
def createInitialBoard : Board := fun r c =>
  if r.val = 3 ∧ c.val = 3 then some .white
  else if r.val = 4 ∧ c.val = 4 then some .white
  else if r.val = 3 ∧ c.val = 4 then some .black
  else if r.val = 4 ∧ c.val = 3 then some .black
  else none

/-- The direction-scanning `while` loop inside `isValidMove`
(`gameLogic.ts` lines 23–39), one direction at a time.  `hasOpponent` is the
mutable flag of the source; the walk returns `true` exactly when the source
executes `return true`. -/
def checkLine (b : Board) (color : Player) (dr dc : Int) :
    Nat → Int → Int → Bool → Bool
  | 0, _, _, _ => false
  | fuel + 1, r, c, hasOpponent =>
    match cellI b r c with
    | none => false            -- while-condition fails: off the board
    | some none => false       -- `if (cell === null) break`
    | some (some p) =>
      if p ≠ color then
        checkLine b color dr dc fuel (r + dr) (c + dc) true
      else
        hasOpponent            -- `if (hasOpponent) return true; break`

/-- Source `isValidMove(board, color, row, col)` of `gameLogic.ts`. -/
def isValidMove (b : Board) (color : Player) (row col : Fin 8) : Bool :=
  if b row col ≠ none then false
  else directions.any fun d =>
    checkLine b color d.1 d.2 8 ((row.val : Int) + d.1) ((col.val : Int) + d.2) false

/-- Source `getValidMoves(board, color)` of `gameLogic.ts`: all legal destinations in
row-major order. -/
def getValidMoves (b : Board) (color : Player) : List Coordinate :=
  (List.finRange 8).flatMap fun r =>
    (List.finRange 8).filterMap fun c =>
      if isValidMove b color r c then some ⟨r, c⟩ else none

/-- The direction walk of `applyMove` (`gameLogic.ts` lines 60–82): collect
`disksToFlip`; `some acc` when a terminating own-colour disk is reached (the
source then flips `acc`), `none` when the walk breaks on an empty cell or
runs off the board (the collected disks are discarded). -/
def collectFlips (b : Board) (color : Player) (dr dc : Int) :
    Nat → Int → Int → List (Int × Int) → Option (List (Int × Int))
  | 0, _, _, _ => none
  | fuel + 1, r, c, acc =>
    match cellI b r c with
    | none => none             -- ran off the board, nothing flipped
    | some none => none        -- `if (cell === null) break`
    | some (some p) =>
      if p ≠ color then
        collectFlips b color dr dc fuel (r + dr) (c + dc) (acc ++ [(r, c)])
      else
        some acc               -- found our own colour: flip the sandwiched run

/-- The two arrays alive during `applyMove`: `orig` is the caller's board,
`copy` is `newBoard = board.map(r => [...r])`.  Every write of the source
body targets `newBoard`, hence `copy`. -/
structure ApplyState where
  orig : Board
  copy : Board

/-- A write `newBoard[r][c] = v`. -/
def writeCopy (s : ApplyState) (r c : Int) (v : Cell) : ApplyState :=
  { s with copy := setCellI s.copy r c v }

/-- Source `applyMove(board, color, row, col)` of `gameLogic.ts`, with both arrays
kept explicit.  The disk is placed, then each direction's contiguous
opposite-colour run terminated by an own-colour disk is flipped; the walks
read from `newBoard` (the `copy`). -/
def applyMoveState (board : Board) (color : Player) (row col : Fin 8) :
    ApplyState :=
  let s0 : ApplyState := { orig := board, copy := board }
  let s1 := writeCopy s0 (row.val : Int) (col.val : Int) (some color)
  directions.foldl (fun s d =>
    match collectFlips s.copy color d.1 d.2 8
        ((row.val : Int) + d.1) ((col.val : Int) + d.2) [] with
    | some flips =>
      if flips.length > 0 then
        flips.foldl (fun s' p => writeCopy s' p.1 p.2 (some color)) s
      else s
    | none => s) s1

/-- The board returned by `applyMove`. -/
def applyMove (board : Board) (color : Player) (row col : Fin 8) : Board :=
  (applyMoveState board color row col).copy

/-- Row-major list of all cells of a board (`board.flat()`). -/
def cellsOf (b : Board) : List Cell :=
  (List.finRange 8).flatMap fun r => (List.finRange 8).map fun c => b r c

/-- Number of empty cells of a board. -/
def emptyCount (b : Board) : Nat := (cellsOf b).countP (· = none)

/-- Number of disks of one colour (`countScore` of `gameLogic.ts` computes
both components this way). -/
def countDisks (b : Board) (p : Player) : Nat :=
  (cellsOf b).countP (· = some p)

/-- Source `countScore(board)` of `gameLogic.ts`: `(Black count, White count)`. -/
def countScore (b : Board) : Nat × Nat :=
  (countDisks b .black, countDisks b .white)

/-- Source `checkGameOver(board)`: both colours have no legal move. -/
def checkGameOver (b : Board) : Bool :=
  (getValidMoves b .black).length = 0 ∧ (getValidMoves b .white).length = 0

/-! ### Learning service data (`src/types.ts`, `learningService.ts`) -/

/-- A remembered move with confidence score and timestamp
(`LearnedMove` of `src/types.ts`). -/
structure LearnedMove where
  row : Fin 8
  col : Fin 8
  score : Int
  timestamp : Int
deriving DecidableEq, Repr

/-- The persisted knowledge snapshot (`LearningData` of `src/types.ts`).
The JS `memory` record becomes an association list in key-insertion order. -/
structure LearningData where
  memory : List (String × LearnedMove)
  weights : Weights
  totalGames : Nat
  wins : Nat
  losses : Nat
  experience : Nat
  maxMemoryLimit : Nat

/-- Source `getBoardHash(board)`: row-major serialization with `_`/`B`/`W`. -/
def getBoardHash (b : Board) : String :=
  String.join ((List.finRange 8).map fun r =>
    String.mk ((List.finRange 8).map fun c =>
      match b r c with
      | none => '_'
      | some .black => 'B'
      | some .white => 'W'))

/-- The four corner cells (the `corners` arrays of `evaluateBoard` and
`isRiskyMove`). -/
def cornerCells : List (Fin 8 × Fin 8) := [(0, 0), (0, 7), (7, 0), (7, 7)]

/-- All 64 cells in row-major order (the nested `for` loops). -/
def allCells : List (Fin 8 × Fin 8) :=
  (List.finRange 8).flatMap fun r => (List.finRange 8).map fun c => (r, c)

/-- Source `isRiskyMove(board, row, col)`: true when the cell is (Chebyshev-)adjacent
to an empty corner; taking a corner itself is never risky. -/
def isRiskyMove (b : Board) (row col : Fin 8) : Bool :=
  if (row.val = 0 ∨ row.val = 7) ∧ (col.val = 0 ∨ col.val = 7) then false
  else cornerCells.any fun corner =>
    if b corner.1 corner.2 = none then
      let dr := ((corner.1.val : Int) - (row.val : Int)).natAbs
      let dc := ((corner.2.val : Int) - (col.val : Int)).natAbs
      (dr == 1 && dc == 1) || (dr == 1 && dc == 0) || (dr == 0 && dc == 1)
    else false

/-- Source `evaluateBoard(board, color, learnedWeights)` of `learningService.ts`:
endgame disk difference × 10000 when the board is full, otherwise one `score`
accumulator over corners (±2000), mobility (×50) and positional weights. -/
def evaluateBoard (b : Board) (color : Player) (learnedWeights : Weights) : ℚ :=
  let opponent := color.opp
  let eCount := emptyCount b
  let myDisks := countDisks b color
  let oppDisks := countDisks b opponent
  if eCount = 0 then
    ((myDisks : ℚ) - (oppDisks : ℚ)) * 10000
  else
    let score : ℚ := 0
    let score := cornerCells.foldl (fun s rc =>
      if b rc.1 rc.2 = some color then s + 2000
      else if b rc.1 rc.2 = some opponent then s - 2000
      else s) score
    let myMoveCount := (getValidMoves b color).length
    let oppMoveCount := (getValidMoves b opponent).length
    let score := score + ((myMoveCount : ℚ) - (oppMoveCount : ℚ)) * 50
    let score := allCells.foldl (fun s rc =>
      if b rc.1 rc.2 = some color then s + learnedWeights rc.1 rc.2
      else if b rc.1 rc.2 = some opponent then s - learnedWeights rc.1 rc.2
      else s) score
    score

/-! ### Minimax with alpha-beta pruning -/

/-- JS numbers extended with the `-Infinity`/`Infinity` sentinels of the
search. -/
abbrev EScore := WithBot (WithTop ℚ)

/-- A finite score. -/
def toE (q : ℚ) : EScore := ((q : WithTop ℚ) : EScore)

/-- The move-ordering sort of `minimax` (`validMoves.sort` by weight
descending; a stable sort w.r.t. the source comparator). -/
def sortMovesByWeight (w : Weights) (moves : List Coordinate) : List Coordinate :=
  List.insertionSort (fun a b => w b.row b.col ≤ w a.row a.col) moves

/-- The maximizing loop of `minimax` (alpha-beta, `break` on `beta <= alpha`);
`f` evaluates a child board with the current window. -/
def alphaBetaMax (f : Board → EScore → EScore → EScore) (mover : Player)
    (b : Board) : List Coordinate → EScore → EScore → EScore → EScore
  | [], _, _, maxEval => maxEval
  | m :: rest, alpha, beta, maxEval =>
    let nextBoard := applyMove b mover m.row m.col
    let evalScore := f nextBoard alpha beta
    let maxEval' := max maxEval evalScore
    let alpha' := max alpha evalScore
    if beta ≤ alpha' then maxEval'
    else alphaBetaMax f mover b rest alpha' beta maxEval'

/-- The minimizing loop of `minimax`. -/
def alphaBetaMin (f : Board → EScore → EScore → EScore) (mover : Player)
    (b : Board) : List Coordinate → EScore → EScore → EScore → EScore
  | [], _, _, minEval => minEval
  | m :: rest, alpha, beta, minEval =>
    let nextBoard := applyMove b mover m.row m.col
    let evalScore := f nextBoard alpha beta
    let minEval' := min minEval evalScore
    let beta' := min beta evalScore
    if beta' ≤ alpha then minEval'
    else alphaBetaMin f mover b rest alpha beta' minEval'

/-- Source `minimax(board, depth, alpha, beta, maximizingPlayer, myColor,
learnedWeights)` of `learningService.ts`: leaf evaluation at depth 0,
true-outcome scoring ×100000 when both sides are stuck, pass at `depth − 1`
when only the side to move is stuck, and the two alpha-beta loops over
weight-ordered moves otherwise. -/
def minimax (myColor : Player) (w : Weights) :
    Nat → Board → EScore → EScore → Bool → EScore
  | 0, b, _, _, _ => toE (evaluateBoard b myColor w)
  | depth + 1, b, alpha, beta, maximizingPlayer =>
    let opponent := myColor.opp
    let currentColor := if maximizingPlayer then myColor else opponent
    let validMoves := getValidMoves b currentColor
    if validMoves.length = 0 then
      let oppMoves := getValidMoves b (if maximizingPlayer then opponent else myColor)
      if oppMoves.length = 0 then
        let counts := countScore b
        let myCount := if myColor = .black then counts.1 else counts.2
        let oppCount := if myColor = .black then counts.2 else counts.1
        toE (((myCount : ℚ) - (oppCount : ℚ)) * 100000)
      else
        minimax myColor w depth b alpha beta (!maximizingPlayer)
    else
      let sorted := sortMovesByWeight w validMoves
      if maximizingPlayer then
        alphaBetaMax (fun nb a' b' => minimax myColor w depth nb a' b' false)
          myColor b sorted alpha beta ⊥
      else
        alphaBetaMin (fun nb a' b' => minimax myColor w depth nb a' b' true)
          opponent b sorted alpha beta ⊤

/-! ### Best-move selection (`getBestMove`) -/

/-- The depth schedule of `getBestMove` (`learningService.ts` lines 310–317):
`depth = 4`, overridden to 12 when at most 12 cells are empty ("Solve the
game") and to 6 when at most 16 are empty. -/
def searchDepth (eCount : Nat) : Nat :=
  if eCount ≤ 12 then 12
  else if eCount ≤ 16 then 6
  else 4

/-- The exact-memory consultation of `getBestMove` (lines 297–307): return
the remembered move for this board's hash when it matches a legal move and
either experience is low (`totalGames < 50`) or its confidence is positive. -/
def memoryMove (board : Board) (validMoves : List Coordinate)
    (data : LearningData) : Option Coordinate :=
  match data.memory.lookup (getBoardHash board) with
  | some memEntry =>
    if validMoves.any fun m => m.row == memEntry.row && m.col == memEntry.col then
      if data.totalGames < 50 ∨ 0 < memEntry.score then
        some ⟨memEntry.row, memEntry.col⟩
      else none
    else none
  | none => none

/-- The root selection loop of `getBestMove` (lines 330–340): strictly better
scores replace the incumbent; equal scores replace it when the next
`Math.random() > 0.5` draw (here `coins k`) is true. -/
def rootLoop (f : Coordinate → EScore) (coins : Nat → Bool) :
    List Coordinate → Nat → Coordinate → EScore → Coordinate
  | [], _, best, _ => best
  | m :: rest, k, best, maxScore =>
    let score := f m
    if maxScore < score then rootLoop f coins rest k m score
    else if score = maxScore then
      if coins k then rootLoop f coins rest (k + 1) m maxScore
      else rootLoop f coins rest (k + 1) best maxScore
    else rootLoop f coins rest k best maxScore

/-- The colour inference of `getBestMove` (lines 291–295): Black when
`validMoves[0]` appears among Black's legal moves, otherwise White. -/
def inferAiColor (board : Board) (validMoves : List Coordinate) : Player :=
  let first := validMoves.headD ⟨0, 0⟩
  if (getValidMoves board .black).any fun m =>
      m.row == first.row && m.col == first.col
  then .black else .white

/-- The root move filter of `getBestMove` (lines 322–328): restrict to the
non-risky moves when some exist and the depth is below the exact-solve
threshold. -/
def rootCandidates (board : Board) (validMoves : List Coordinate)
    (depth : Nat) : List Coordinate :=
  let safeMoves := validMoves.filter fun m => !isRiskyMove board m.row m.col
  if safeMoves.length > 0 ∧ depth < 10 then safeMoves else validMoves

/-- The search score of one root move (line 332): `minimax` on the board
after the move, at `depth − 1`, with a full window, minimizing next. -/
def rootScore (board : Board) (validMoves : List Coordinate)
    (data : LearningData) (m : Coordinate) : EScore :=
  minimax (inferAiColor board validMoves) data.weights
    (searchDepth (emptyCount board) - 1)
    (applyMove board (inferAiColor board validMoves) m.row m.col) ⊥ ⊤ false

/-- Source `getBestMove(board, validMoves, injectedBrain)` of `learningService.ts`.
`data` plays the role of `injectedBrain` (otherwise the stored brain) and
`coins` the successive `Math.random() > 0.5` tie-break draws.  The source
reads `validMoves[0]`, so the embedding supplies a default for the empty
list; every property below assumes a non-empty `validMoves`. -/
def getBestMove (board : Board) (validMoves : List Coordinate)
    (data : LearningData) (coins : Nat → Bool) : Coordinate :=
  match memoryMove board validMoves data with
  | some mv => mv
  | none =>
    rootLoop (rootScore board validMoves data) coins
      (rootCandidates board validMoves (searchDepth (emptyCount board)))
      0 (validMoves.headD ⟨0, 0⟩) ⊥

/-! ### Weight adaptation and memory reinforcement (`trainBrain`) -/

/-- One entry of `gameHistory`: the board before the move, the move, and the
mover's colour. -/
structure HistoryTurn where
  board : Board
  move : Coordinate
  color : Player

/-- Add `δ` to a single weight cell (`newData.weights[row][col] += δ`). -/
def updW (w : Weights) (r c : Fin 8) (δ : ℚ) : Weights :=
  fun i j => if i = r ∧ j = c then w i j + δ else w i j

/-- The clamp of `trainBrain`: cap at 600, then floor at −600. -/
def clampW (v : ℚ) : ℚ :=
  let v := if v > 600 then (600 : ℚ) else v
  if v < -600 then (-600 : ℚ) else v

/-- Assignment to a JS record key: overwrite in place when the key exists,
append otherwise. -/
def recordSet (mem : List (String × LearnedMove)) (k : String)
    (v : LearnedMove) : List (String × LearnedMove) :=
  if mem.any fun e => e.1 == k then
    mem.map fun e => if e.1 == k then (k, v) else e
  else mem ++ [(k, v)]

/-- Source `trainBrain(currentData, gameHistory, winner)` of `learningService.ts`,
with `Date.now()` passed in as `now`.  Weight deltas (+0.5 winner / −0.25
loser) over the full history, clamp to [−600, 600], midgame-slice memory
reinforcement for the winner, then stats. -/
def trainBrain (currentData : LearningData) (gameHistory : List HistoryTurn)
    (winner : Option Player) (now : Int) : LearningData :=
  let newData : LearningData :=
    { currentData with
      weights := currentData.weights, memory := currentData.memory }
  match winner with
  | none => newData
  | some win =>
    let w1 := gameHistory.foldl (fun acc turn =>
      if turn.color = win then
        updW acc turn.move.row turn.move.col ((1 : ℚ) / 2)
      else
        updW acc turn.move.row turn.move.col (-((1 : ℚ) / 4))) newData.weights
    let w2 : Weights := fun i j => clampW (w1 i j)
    let memory' :=
      if gameHistory.length > 20 then
        -- `gameHistory.slice(15, -8)`
        let midGame := (gameHistory.take (gameHistory.length - 8)).drop 15
        midGame.foldl (fun mem turn =>
          if turn.color = win then
            let hash := getBoardHash turn.board
            match mem.lookup hash with
            | some existing =>
              if existing.row = turn.move.row ∧ existing.col = turn.move.col then
                recordSet mem hash
                  { existing with score := existing.score + 1, timestamp := now }
              else
                recordSet mem hash ⟨turn.move.row, turn.move.col, 1, now⟩
            | none => recordSet mem hash ⟨turn.move.row, turn.move.col, 1, now⟩
          else mem) newData.memory
      else newData.memory
    { newData with
      weights := w2
      memory := memory'
      totalGames := newData.totalGames + 1
      experience := newData.experience + 150
      wins := newData.wins + 1 }

/-! ### Memory eviction (`pruneMemory` / `saveBrain` of the IndexedDB
learning service, `src/unnamed/part_000`) -/

/-- The comparator of `pruneMemory`: score descending, then timestamp
descending — `memRank a b` says `a` sorts no later than `b`. -/
def memRank (a b : String × LearnedMove) : Prop :=
  b.2.score < a.2.score ∨ (a.2.score = b.2.score ∧ b.2.timestamp ≤ a.2.timestamp)

instance : DecidableRel memRank := fun a b => by
  unfold memRank; infer_instance

/-- Source `pruneMemory(data, limit)`: when strictly over `limit`, sort all entries
by the comparator and keep only the first `limit` of them. -/
def pruneMemory (memory : List (String × LearnedMove)) (limit : Nat) :
    List (String × LearnedMove) :=
  if memory.length ≤ limit then memory
  else (List.insertionSort memRank memory).take limit

/-- The eviction step of `saveBrain`: prune only when occupancy is 10% over
the limit (`Object.keys(data.memory).length > currentLimit * 1.1`; exact on
integer counts), with a zero/absent limit falling back to
`DEFAULT_MEMORY_LIMIT = 5000`. -/
def saveBrainPrune (data : LearningData) : LearningData :=
  let currentLimit := if data.maxMemoryLimit = 0 then 5000 else data.maxMemoryLimit
  if (data.memory.length : ℚ) > (currentLimit : ℚ) * 11 / 10 then
    { data with memory := pruneMemory data.memory currentLimit }
  else data

/-! ### Specification-side definitions

The following definitions transcribe the *spec's wording* (not the code) and
exist only to be compared with the embedded source functions above. -/

/-- Spec wording for one direction of move legality: "a contiguous non-empty
run of the opposite color terminated by a same-color disk before board edge
or an empty cell".  Positions are counted from the move cell `(row, col)`:
the run occupies steps `1..k` and the terminating own-colour disk sits at
step `k + 1`, all in bounds. -/
def specLineCapture (b : Board) (color : Player) (row col dr dc : Int) : Prop :=
  ∃ k : Nat, 1 ≤ k ∧
    (∀ i : Nat, 1 ≤ i → i ≤ k →
      cellI b (row + (i : Int) * dr) (col + (i : Int) * dc) =
        some (some color.opp)) ∧
    cellI b (row + ((k : Int) + 1) * dr) (col + ((k : Int) + 1) * dc) =
      some (some color)

/-- Spec wording for move legality: "a cell is a legal destination iff empty
and at least one of the 8 directions (4 orthogonal, 4 diagonal) has a
contiguous non-empty run of the opposite color terminated by a same-color
disk before board edge or an empty cell". -/
def specLegalMove (b : Board) (color : Player) (row col : Fin 8) : Prop :=
  b row col = none ∧ ∃ d ∈ directions,
    specLineCapture b color (row.val : Int) (col.val : Int) d.1 d.2

/-- Spec tier 2: net corner count (held corners minus opponent corners). -/
def cornerNet (b : Board) (color : Player) : Int :=
  ((cornerCells.countP fun rc => b rc.1 rc.2 = some color : Nat) : Int) -
    ((cornerCells.countP fun rc => b rc.1 rc.2 = some color.opp : Nat) : Int)

/-- Spec tier 2 as a score: "for each of the 4 corners, if held by `color`
add a large fixed bonus (e.g. +2000); if held by opponent subtract the
same". -/
def cornerTier (b : Board) (color : Player) : ℚ :=
  ((cornerNet b color : ℚ)) * 2000

/-- Spec tier 3, mobility part: "(myLegalMoveCount − oppLegalMoveCount) ×
50". -/
def mobilityTier (b : Board) (color : Player) : ℚ :=
  (((getValidMoves b color).length : ℚ) -
    ((getValidMoves b color.opp).length : ℚ)) * 50

/-- Spec tier 3, positional part: "for every occupied cell add
`weights[r][c]` if owned by `color`, subtract it if owned by opponent". -/
def positionTier (b : Board) (color : Player) (w : Weights) : ℚ :=
  (allCells.map fun rc =>
    if b rc.1 rc.2 = some color then w rc.1 rc.2
    else if b rc.1 rc.2 = some color.opp then -(w rc.1 rc.2)
    else 0).sum

/-- Number of moves of `hist` played by `p` landing on cell `(i, j)`. -/
def movesAtBy (hist : List HistoryTurn) (i j : Fin 8) (p : Player) : Nat :=
  (hist.filter fun t => t.move.row == i && t.move.col == j && t.color == p).length

/-- Running maximum of root scores (used to state the root-loop lemmas). -/
def listMax (f : Coordinate → EScore) (l : List Coordinate) (acc : EScore) :
    EScore :=
  l.foldl (fun a m => max a (f m)) acc

/-! ### Concrete fixtures -/

/-- The all-zero weight matrix. -/
def w0 : Weights := fun _ _ => 0

/-- A weight matrix with every cell at the clamp bound 600. -/
def w600 : Weights := fun _ _ => 600

/-- A fresh brain with empty memory and zero stats. -/
def emptyBrain : LearningData := ⟨[], w0, 0, 0, 0, 0, 5000⟩

/-- Three Black disks guarding a lone White disk: Black's three legal moves
`(3,4)`, `(4,3)`, `(4,4)` each capture the only White disk, so all three
root searches return the same terminal score. -/
def tieBoard : Board := fun r c =>
  if (r.val = 2 ∧ c.val = 2) ∨ (r.val = 2 ∧ c.val = 3) ∨ (r.val = 3 ∧ c.val = 2)
  then some .black
  else if r.val = 3 ∧ c.val = 3 then some .white
  else none

/-- The legal Black moves of `tieBoard`, in the row-major order
`getValidMoves` produces. -/
def tieMoves : List Coordinate := [⟨3, 4⟩, ⟨4, 3⟩, ⟨4, 4⟩]

/-- A full board: rows 0–4 Black (40 disks), rows 5–7 White (24 disks). -/
def fb4024 : Board := fun r _ => if r.val ≤ 4 then some .black else some .white

/-- An almost-full board with exactly 5 empty cells (the last five of the
row-major order). -/
def b5empty : Board := fun r c =>
  if r.val * 8 + c.val < 59 then some .black else none

/-- A lone Black disk on the corner `(0,0)`. -/
def b1 : Board := fun r c =>
  if r.val = 0 ∧ c.val = 0 then some .black else none

/-- Five Black disks away from every corner, no White disk. -/
def b2 : Board := fun r c =>
  if (r.val = 3 ∧ c.val = 3) ∨ (r.val = 3 ∧ c.val = 4) ∨ (r.val = 4 ∧ c.val = 3) ∨
      (r.val = 4 ∧ c.val = 4) ∨ (r.val = 2 ∧ c.val = 2)
  then some .black else none

/-- A full board with 33 Black and 31 White disks (first 33 cells of the
row-major order are Black). -/
def bFull3331 : Board := fun r c =>
  if r.val * 8 + c.val < 33 then some .black else some .white

/-- A board of 60 Black disks (including all four corners) and 4 empty centre cells. -/
def bH : Board := fun r c =>
  if (r.val = 3 ∨ r.val = 4) ∧ (c.val = 3 ∨ c.val = 4) then none
  else some .black

/-- A list of 150 memory entries with pairwise distinct (score, timestamp) ranks. -/
def bigMemory : List (String × LearnedMove) :=
  (List.range 150).map fun i => (toString i, ⟨0, 0, (i : Int), (i : Int)⟩)

/-- A brain holding `bigMemory` with capacity 100. -/
def bigData : LearningData := ⟨bigMemory, w0, 0, 0, 0, 0, 100⟩

/-! ## Theorems -/

set_option allowUnsafeReducibility true

set_option maxRecDepth 8000

attribute [local semireducible] Rat.add Rat.sub Rat.mul Rat.inv Rat.div

/-! ### `applyMove` write-discipline lemmas -/

theorem writeCopy_orig (s : ApplyState) (r c : Int) (v : Cell) :
    (writeCopy s r c v).orig = s.orig := rfl

theorem flipFold_orig (v : Cell) :
    ∀ (l : List (Int × Int)) (s : ApplyState),
      (l.foldl (fun s' p => writeCopy s' p.1 p.2 v) s).orig = s.orig := by
  intro l
  induction l with
  | nil => intro s; rfl
  | cons p rest ih => intro s; rw [List.foldl_cons, ih, writeCopy_orig]

theorem dirFold_orig (color : Player) (row col : Fin 8) :
    ∀ (ds : List (Int × Int)) (s : ApplyState),
      (ds.foldl (fun s d =>
        match collectFlips s.copy color d.1 d.2 8
            ((row.val : Int) + d.1) ((col.val : Int) + d.2) [] with
        | some flips =>
          if flips.length > 0 then
            flips.foldl (fun s' p => writeCopy s' p.1 p.2 (some color)) s
          else s
        | none => s) s).orig = s.orig := by
  intro ds
  induction ds with
  | nil => intro s; rfl
  | cons d rest ih =>
    intro s
    rw [List.foldl_cons, ih]
    cases collectFlips s.copy color d.1 d.2 8
        ((row.val : Int) + d.1) ((col.val : Int) + d.2) [] with
    | none => rfl
    | some flips =>
      dsimp only
      by_cases hl : flips.length > 0
      · rw [if_pos hl, flipFold_orig]
      · rw [if_neg hl]

theorem applyMoveState_orig (b : Board) (color : Player) (row col : Fin 8) :
    (applyMoveState b color row col).orig = b := by
  unfold applyMoveState
  rw [dirFold_orig, writeCopy_orig]

theorem setCellI_keeps (bd : Board) (r c : Int) (color : Player) (i j : Fin 8)
    (h : bd i j = some color) :
    setCellI bd r c (some color) i j = some color := by
  unfold setCellI
  split
  · rfl
  · exact h

theorem flipFold_keeps (color : Player) (i j : Fin 8) :
    ∀ (l : List (Int × Int)) (s : ApplyState), s.copy i j = some color →
      (l.foldl (fun s' p => writeCopy s' p.1 p.2 (some color)) s).copy i j =
        some color := by
  intro l
  induction l with
  | nil => intro s h; exact h
  | cons p rest ih =>
    intro s h
    rw [List.foldl_cons]
    exact ih _ (setCellI_keeps _ _ _ _ _ _ h)

theorem dirFold_keeps (color : Player) (row col i j : Fin 8) :
    ∀ (ds : List (Int × Int)) (s : ApplyState), s.copy i j = some color →
      (ds.foldl (fun s d =>
        match collectFlips s.copy color d.1 d.2 8
            ((row.val : Int) + d.1) ((col.val : Int) + d.2) [] with
        | some flips =>
          if flips.length > 0 then
            flips.foldl (fun s' p => writeCopy s' p.1 p.2 (some color)) s
          else s
        | none => s) s).copy i j = some color := by
  intro ds
  induction ds with
  | nil => intro s h; exact h
  | cons d rest ih =>
    intro s h
    rw [List.foldl_cons]
    refine ih _ ?_
    cases collectFlips s.copy color d.1 d.2 8
        ((row.val : Int) + d.1) ((col.val : Int) + d.2) [] with
    | none => exact h
    | some flips =>
      dsimp only
      by_cases hl : flips.length > 0
      · rw [if_pos hl]; exact flipFold_keeps _ _ _ _ _ h
      · rw [if_neg hl]; exact h

theorem applyMove_places (b : Board) (color : Player) (row col : Fin 8) :
    applyMove b color row col row col = some color := by
  unfold applyMove applyMoveState
  refine dirFold_keeps color row col row col _ _ ?_
  show setCellI b (row.val : Int) (col.val : Int) (some color) row col = some color
  unfold setCellI
  rw [if_pos ⟨rfl, rfl⟩]

/-! ### C1: `applyMove` on illegal moves -/

/-- C1 counterexample: the claim says `applyMove` fails on a move outside
`legalMoves`; but at the illegal move (0,0) on the initial board the source
performs no legality check — it returns a definite (changed) board with the
disk placed. -/
theorem C1_counterexample :
    isValidMove createInitialBoard .black 0 0 = false ∧
    applyMove createInitialBoard .black 0 0 0 0 = some Player.black ∧
    applyMove createInitialBoard .black 0 0 ≠ createInitialBoard := by decide

/-- C1 (amended): `applyMove` performs no legality check: for every board,
colour and move — also one rejected by `isValidMove` — it returns a board
with the mover's disk placed at the move's cell, and the failed legality has
no effect; the caller's board is not mutated (every write targets the
copy). -/
theorem C1_applyMove_no_reject (b : Board) (color : Player) (row col : Fin 8)
    (_h : isValidMove b color row col = false) :
    (applyMoveState b color row col).orig = b ∧
    applyMove b color row col row col = some color :=
  ⟨applyMoveState_orig b color row col, applyMove_places b color row col⟩

theorem C1_applyMove_no_reject_witness :
    isValidMove createInitialBoard Player.black 0 0 = false ∧
    ((applyMoveState createInitialBoard Player.black 0 0).orig = createInitialBoard ∧
      applyMove createInitialBoard Player.black 0 0 0 0 = some Player.black) :=
  ⟨by decide, C1_applyMove_no_reject createInitialBoard Player.black 0 0 (by decide)⟩

/-! ### C9: purity of `applyMove` -/

/-- C9: `applyMove` is pure — the caller's board is untouched (the body
writes only to the `newBoard` copy), and two invocations on value-equal
copies of the same input yield identical result boards. -/
theorem C9_applyMove_pure (b bb : Board) (color : Player) (row col : Fin 8)
    (h : bb = b) :
    (applyMoveState b color row col).orig = b ∧
    applyMove bb color row col = applyMove b color row col := by
  subst h
  exact ⟨applyMoveState_orig bb color row col, rfl⟩

theorem C9_applyMove_pure_witness :
    (applyMoveState createInitialBoard Player.black 2 3).orig = createInitialBoard ∧
    applyMove createInitialBoard Player.black 2 3 =
      applyMove createInitialBoard Player.black 2 3 :=
  C9_applyMove_pure createInitialBoard createInitialBoard Player.black 2 3 rfl

/-! ### C3: depth schedule of `getBestMove` -/

/-- C3 counterexample: with 5 empty cells the claim demands depth `e = 5`,
but `getBestMove`'s schedule picks the constant 12. -/
theorem C3_counterexample :
    emptyCount b5empty = 5 ∧ searchDepth (emptyCount b5empty) = 12 ∧
      searchDepth (emptyCount b5empty) ≠ 5 := by decide

/-- C3 (amended): the search depth of `getBestMove` as a function of the
empty-cell count `e` is 12 (not `e`; still at least `e`, hence an exact
solve to game end) when `e ≤ 12`, 6 when `12 < e ≤ 16`, and 4 otherwise. -/
theorem C3_depth_schedule (e : Nat) :
    (e ≤ 12 → searchDepth e = 12 ∧ e ≤ searchDepth e) ∧
    (12 < e → e ≤ 16 → searchDepth e = 6) ∧
    (16 < e → searchDepth e = 4) := by
  unfold searchDepth
  refine ⟨fun h => ?_, fun h1 h2 => ?_, fun h => ?_⟩
  · rw [if_pos h]; omega
  · rw [if_neg (by omega), if_pos h2]
  · rw [if_neg (by omega), if_neg (by omega)]

theorem C3_depth_schedule_witness :
    searchDepth 10 = 12 ∧ 10 ≤ searchDepth 10 ∧ searchDepth 14 = 6 ∧
      searchDepth 20 = 4 :=
  ⟨((C3_depth_schedule 10).1 (by decide)).1,
    ((C3_depth_schedule 10).1 (by decide)).2,
    (C3_depth_schedule 14).2.1 (by decide) (by decide),
    (C3_depth_schedule 20).2.2 (by decide)⟩

/-! ### C8: endgame evaluation -/

/-- C8: on a full board (`emptyCount = 0`) the evaluator returns
`(myDisks − oppDisks) × 10000`, regardless of weights, corners or
mobility. -/
theorem C8_endgame_eval (b : Board) (color : Player) (w : Weights)
    (h : emptyCount b = 0) :
    evaluateBoard b color w =
      ((countDisks b color : ℚ) - (countDisks b color.opp : ℚ)) * 10000 := by
  unfold evaluateBoard
  simp [h]

/-- C8 witness: the full 40-Black/24-White board evaluates, for Black, to
exactly 160000 — even with every weight at the clamp bound. -/
theorem C8_endgame_eval_witness :
    emptyCount fb4024 = 0 ∧ evaluateBoard fb4024 .black w600 = 160000 := by
  refine ⟨by decide, ?_⟩
  rw [C8_endgame_eval fb4024 .black w600 (by decide)]
  decide

/-! ### C6: weight adaptation of `trainBrain` -/

theorem Player.ne_iff_eq_opp (p q : Player) : p ≠ q ↔ p = q.opp := by
  cases p <;> cases q <;> simp [Player.opp]

theorem Player.opp_ne (p : Player) : p.opp ≠ p := by
  cases p <;> simp [Player.opp]

theorem movesAtBy_cons (t : HistoryTurn) (rest : List HistoryTurn)
    (i j : Fin 8) (p : Player) :
    movesAtBy (t :: rest) i j p =
      movesAtBy rest i j p +
        (if t.move.row = i ∧ t.move.col = j ∧ t.color = p then 1 else 0) := by
  simp only [movesAtBy, List.filter_cons]
  split
  · rename_i hb
    simp only [Bool.and_eq_true, beq_iff_eq] at hb
    rw [if_pos ⟨hb.1.1, hb.1.2, hb.2⟩, List.length_cons]
  · rename_i hb
    simp only [Bool.and_eq_true, beq_iff_eq] at hb
    rw [if_neg (by tauto)]
    omega

theorem deltaFold_cell (win : Player) (i j : Fin 8) :
    ∀ (hist : List HistoryTurn) (w : Weights),
      (hist.foldl (fun acc turn =>
        if turn.color = win then
          updW acc turn.move.row turn.move.col ((1 : ℚ) / 2)
        else
          updW acc turn.move.row turn.move.col (-((1 : ℚ) / 4))) w) i j =
      w i j + (movesAtBy hist i j win : ℚ) * (1 / 2)
        - (movesAtBy hist i j win.opp : ℚ) * (1 / 4) := by
  intro hist
  induction hist with
  | nil => intro w; simp [movesAtBy]
  | cons t rest ih =>
    intro w
    rw [List.foldl_cons, ih, movesAtBy_cons t rest i j win,
      movesAtBy_cons t rest i j win.opp]
    by_cases hc : t.color = win
    · rw [if_pos hc,
        if_neg (show ¬(t.move.row = i ∧ t.move.col = j ∧ t.color = win.opp) from
          fun hh => Player.opp_ne win (hh.2.2 ▸ hc)),
        updW]
      by_cases hm : t.move.row = i ∧ t.move.col = j
      · rw [if_pos (show t.move.row = i ∧ t.move.col = j ∧ t.color = win from
            ⟨hm.1, hm.2, hc⟩),
          if_pos (show i = t.move.row ∧ j = t.move.col from
            ⟨hm.1.symm, hm.2.symm⟩)]
        push_cast
        ring
      · rw [if_neg (show ¬(t.move.row = i ∧ t.move.col = j ∧ t.color = win) from
            fun hh => hm ⟨hh.1, hh.2.1⟩),
          if_neg (show ¬(i = t.move.row ∧ j = t.move.col) from
            fun hh => hm ⟨hh.1.symm, hh.2.symm⟩)]
        push_cast
        ring
    · rw [if_neg hc,
        if_neg (show ¬(t.move.row = i ∧ t.move.col = j ∧ t.color = win) from
          fun hh => hc hh.2.2),
        updW]
      have hco : t.color = win.opp := (Player.ne_iff_eq_opp t.color win).mp hc
      by_cases hm : t.move.row = i ∧ t.move.col = j
      · rw [if_pos (show t.move.row = i ∧ t.move.col = j ∧ t.color = win.opp from
            ⟨hm.1, hm.2, hco⟩),
          if_pos (show i = t.move.row ∧ j = t.move.col from
            ⟨hm.1.symm, hm.2.symm⟩)]
        push_cast
        ring
      · rw [if_neg (show ¬(t.move.row = i ∧ t.move.col = j ∧ t.color = win.opp) from
            fun hh => hm ⟨hh.1, hh.2.1⟩),
          if_neg (show ¬(i = t.move.row ∧ j = t.move.col) from
            fun hh => hm ⟨hh.1.symm, hh.2.symm⟩)]
        push_cast
        ring

theorem clampW_mem (v : ℚ) : -600 ≤ clampW v ∧ clampW v ≤ 600 := by
  simp only [clampW]
  split_ifs <;> constructor <;> linarith

/-- C6: for a non-null winner, `trainBrain` yields, at every weight cell, the
clamp into [−600, 600] of the old value plus 0.5 per winning move and minus
0.25 per losing move on that cell (all of the full history), and the
resulting cell always lies within [−600, 600]; the update is a pure function
of the input snapshot — `data.weights` itself is untouched. -/
theorem C6_train_weights (data : LearningData) (hist : List HistoryTurn)
    (win : Player) (now : Int) (i j : Fin 8) :
    (trainBrain data hist (some win) now).weights i j =
      clampW (data.weights i j + (movesAtBy hist i j win : ℚ) * (1 / 2)
        - (movesAtBy hist i j win.opp : ℚ) * (1 / 4)) ∧
    -600 ≤ (trainBrain data hist (some win) now).weights i j ∧
    (trainBrain data hist (some win) now).weights i j ≤ 600 := by
  have hw : (trainBrain data hist (some win) now).weights i j =
      clampW ((hist.foldl (fun acc turn =>
        if turn.color = win then
          updW acc turn.move.row turn.move.col ((1 : ℚ) / 2)
        else
          updW acc turn.move.row turn.move.col (-((1 : ℚ) / 4)))
        data.weights) i j) := rfl
  rw [hw, deltaFold_cell]
  exact ⟨rfl, (clampW_mem _).1, (clampW_mem _).2⟩

/-! ### C5: evaluator tier structure -/

theorem foldl_step_sum {α : Type} (g : α → ℚ) :
    ∀ (l : List α) (s : ℚ), l.foldl (fun a x => a + g x) s = s + (l.map g).sum := by
  intro l
  induction l with
  | nil => intro s; simp
  | cons x rest ih =>
    intro s
    rw [List.foldl_cons, ih, List.map_cons, List.sum_cons]
    ring

theorem cornerContrib_sum (b : Board) (color : Player) :
    ∀ l : List (Fin 8 × Fin 8),
      (l.map fun rc =>
        if b rc.1 rc.2 = some color then (2000 : ℚ)
        else if b rc.1 rc.2 = some color.opp then -2000 else 0).sum =
      (((l.countP fun rc => b rc.1 rc.2 = some color : Nat) : ℚ) -
        ((l.countP fun rc => b rc.1 rc.2 = some color.opp : Nat) : ℚ)) * 2000 := by
  intro l
  induction l with
  | nil => simp
  | cons rc rest ih =>
    rw [List.map_cons, List.sum_cons, ih, List.countP_cons, List.countP_cons]
    by_cases h1 : b rc.1 rc.2 = some color
    · have h2 : b rc.1 rc.2 ≠ some color.opp := by
        rw [h1]
        intro hh
        exact Player.opp_ne color (Option.some.inj hh).symm
      simp [h1, h2, Ne.symm (Player.opp_ne color)]
      try push_cast
      try ring
    · by_cases h2 : b rc.1 rc.2 = some color.opp
      · simp [h1, h2, Player.opp_ne]
        try push_cast
        try ring
      · simp [h1, h2]
        try push_cast
        try ring

theorem cornerFold_eq (b : Board) (color : Player) (s : ℚ) :
    cornerCells.foldl (fun s rc =>
      if b rc.1 rc.2 = some color then s + 2000
      else if b rc.1 rc.2 = some color.opp then s - 2000
      else s) s = s + cornerTier b color := by
  have hext : cornerCells.foldl (fun s rc =>
      if b rc.1 rc.2 = some color then s + 2000
      else if b rc.1 rc.2 = some color.opp then s - 2000
      else s) s = cornerCells.foldl (fun s rc => s +
        (if b rc.1 rc.2 = some color then (2000 : ℚ)
          else if b rc.1 rc.2 = some color.opp then -2000 else 0)) s := by
    apply List.foldl_ext
    intro a rc _
    by_cases h1 : b rc.1 rc.2 = some color
    · simp [h1]
    · by_cases h2 : b rc.1 rc.2 = some color.opp <;>
        simp [h1, h2, Player.opp_ne] <;> ring
  rw [hext, foldl_step_sum, cornerContrib_sum]
  unfold cornerTier cornerNet
  push_cast
  ring

theorem posFold_eq (b : Board) (color : Player) (w : Weights) (s : ℚ) :
    allCells.foldl (fun s rc =>
      if b rc.1 rc.2 = some color then s + w rc.1 rc.2
      else if b rc.1 rc.2 = some color.opp then s - w rc.1 rc.2
      else s) s = s + positionTier b color w := by
  have hext : allCells.foldl (fun s rc =>
      if b rc.1 rc.2 = some color then s + w rc.1 rc.2
      else if b rc.1 rc.2 = some color.opp then s - w rc.1 rc.2
      else s) s = allCells.foldl (fun s rc => s +
        (if b rc.1 rc.2 = some color then w rc.1 rc.2
          else if b rc.1 rc.2 = some color.opp then -(w rc.1 rc.2) else 0)) s := by
    apply List.foldl_ext
    intro a rc _
    by_cases h1 : b rc.1 rc.2 = some color
    · simp [h1]
    · by_cases h2 : b rc.1 rc.2 = some color.opp <;>
        simp [h1, h2, Player.opp_ne] <;> ring
  rw [hext, foldl_step_sum]
  rfl

/-- C5 (amended): on every non-full board the evaluator is the plain sum of
the three tiers with coefficients 2000 (corner), 50 (mobility) and the raw
positional weights; the claimed magnitude ordering between the tiers does
not hold in general (see the counterexample). -/
theorem C5_eval_decomposition (b : Board) (color : Player) (w : Weights)
    (h : emptyCount b ≠ 0) :
    evaluateBoard b color w =
      cornerTier b color + mobilityTier b color + positionTier b color w := by
  simp only [evaluateBoard]
  rw [if_neg h, cornerFold_eq, posFold_eq]
  unfold mobilityTier
  ring

theorem C5_eval_decomposition_witness :
    emptyCount b1 ≠ 0 ∧
    evaluateBoard b1 Player.black w600 =
      cornerTier b1 Player.black + mobilityTier b1 Player.black +
        positionTier b1 Player.black w600 :=
  ⟨by decide, C5_eval_decomposition b1 Player.black w600 (by decide)⟩

/-- C5 counterexample: with every weight inside the clamp range [−600, 600],
board `b1` (one own corner) evaluates strictly below board `b2` (no corner
but five well-weighted disks) — a corner difference does not outweigh the
positional sum; and the full 33–31 board's decisive endgame score 20000 is
strictly below the non-endgame heuristic score of `bH` — a decisive endgame
score does not dominate every non-endgame heuristic score. -/
theorem C5_counterexample :
    (∀ i j : Fin 8, -600 ≤ w600 i j ∧ w600 i j ≤ 600) ∧
    emptyCount b1 ≠ 0 ∧ emptyCount b2 ≠ 0 ∧
    cornerNet b1 .black = 1 ∧ cornerNet b2 .black = 0 ∧
    evaluateBoard b1 .black w600 < evaluateBoard b2 .black w600 ∧
    emptyCount bFull3331 = 0 ∧ 0 < evaluateBoard bFull3331 .black w600 ∧
    emptyCount bH ≠ 0 ∧
    evaluateBoard bFull3331 .black w600 < evaluateBoard bH .black w600 := by
  decide

/-! ### C2: memory eviction -/

instance : IsTotal (String × LearnedMove) memRank :=
  ⟨by intro a b; unfold memRank; omega⟩

instance : IsTrans (String × LearnedMove) memRank :=
  ⟨by intro a b c hab hbc; unfold memRank at *; omega⟩

/-- C2: with capacity 100 and 150 entries of pairwise distinct
(confidence, timestamp) ranks, the eviction performed by a save is
triggered (150 exceeds the 10% hysteresis margin over 100) and retains
exactly the 100 highest-ranked entries: the surviving memory has length
100, is drawn from the old entries, and every survivor strictly outranks
(score descending, then timestamp descending) every discarded entry. -/
theorem C2_eviction (data : LearningData)
    (hcap : data.maxMemoryLimit = 100)
    (hlen : data.memory.length = 150)
    (hdistinct : data.memory.Pairwise fun a b =>
      (a.2.score, a.2.timestamp) ≠ (b.2.score, b.2.timestamp)) :
    (saveBrainPrune data).memory.length = 100 ∧
    (∀ e ∈ (saveBrainPrune data).memory, e ∈ data.memory) ∧
    (∀ e ∈ (saveBrainPrune data).memory, ∀ e2 ∈ data.memory,
      e2 ∉ (saveBrainPrune data).memory →
      (e2.2.score < e.2.score ∨
        (e2.2.score = e.2.score ∧ e2.2.timestamp < e.2.timestamp))) := by
  have hres : (saveBrainPrune data).memory =
      (List.insertionSort memRank data.memory).take 100 := by
    simp only [saveBrainPrune, pruneMemory, hcap, hlen]
    norm_num
  have hperm : List.Perm (List.insertionSort memRank data.memory) data.memory :=
    List.perm_insertionSort memRank data.memory
  have hsortlen : (List.insertionSort memRank data.memory).length = 150 := by
    rw [hperm.length_eq, hlen]
  have hsplit : (List.insertionSort memRank data.memory).take 100 ++
      (List.insertionSort memRank data.memory).drop 100 =
      List.insertionSort memRank data.memory := List.take_append_drop _ _
  have hpw : List.Pairwise memRank
      ((List.insertionSort memRank data.memory).take 100 ++
        (List.insertionSort memRank data.memory).drop 100) := by
    rw [hsplit]
    exact List.sorted_insertionSort memRank data.memory
  have hcross := (List.pairwise_append.mp hpw).2.2
  have hdist2 : List.Pairwise (fun a b : String × LearnedMove =>
      (a.2.score, a.2.timestamp) ≠ (b.2.score, b.2.timestamp))
      ((List.insertionSort memRank data.memory).take 100 ++
        (List.insertionSort memRank data.memory).drop 100) := by
    rw [hsplit]
    exact (hperm.pairwise_iff fun h => h ∘ Eq.symm).mpr hdistinct
  have hdistcross := (List.pairwise_append.mp hdist2).2.2
  have hmemdrop : ∀ e2 ∈ data.memory,
      e2 ∉ (List.insertionSort memRank data.memory).take 100 →
      e2 ∈ (List.insertionSort memRank data.memory).drop 100 := by
    intro e2 hmem hnot
    have : e2 ∈ List.insertionSort memRank data.memory := hperm.mem_iff.mpr hmem
    rw [← hsplit] at this
    rcases List.mem_append.mp this with h | h
    · exact absurd h hnot
    · exact h
  rw [hres]
  refine ⟨?_, ?_, ?_⟩
  · rw [List.length_take, hsortlen]
    omega
  · intro e he
    exact hperm.mem_iff.mp (List.mem_of_mem_take he)
  · intro e he e2 hmem2 hnot2
    have h1 : memRank e e2 := hcross e he e2 (hmemdrop e2 hmem2 hnot2)
    have h2 := hdistcross e he e2 (hmemdrop e2 hmem2 hnot2)
    unfold memRank at h1
    simp only [ne_eq, Prod.mk.injEq, not_and] at h2
    omega

theorem C2_eviction_witness :
    bigData.memory.length = 150 ∧
    ((saveBrainPrune bigData).memory.length = 100 ∧
      (∀ e ∈ (saveBrainPrune bigData).memory, e ∈ bigData.memory) ∧
      (∀ e ∈ (saveBrainPrune bigData).memory, ∀ e2 ∈ bigData.memory,
        e2 ∉ (saveBrainPrune bigData).memory →
        (e2.2.score < e.2.score ∨
          (e2.2.score = e.2.score ∧ e2.2.timestamp < e.2.timestamp)))) :=
  ⟨by decide, C2_eviction bigData rfl (by decide) (by decide)⟩

/-! ### Root-loop lemmas (C4, C10) -/

theorem rootLoop_mem (f : Coordinate → EScore) (coins : Nat → Bool) :
    ∀ (l : List Coordinate) (k : Nat) (best : Coordinate) (ms : EScore),
      rootLoop f coins l k best ms = best ∨ rootLoop f coins l k best ms ∈ l := by
  intro l
  induction l with
  | nil => intro k best ms; exact Or.inl rfl
  | cons m rest ih =>
    intro k best ms
    simp only [rootLoop]
    split_ifs with h1 h2 h3
    · rcases ih k m (f m) with h | h
      · rw [h]; exact Or.inr (List.mem_cons_self m rest)
      · exact Or.inr (List.mem_cons_of_mem m h)
    · rcases ih (k + 1) m ms with h | h
      · rw [h]; exact Or.inr (List.mem_cons_self m rest)
      · exact Or.inr (List.mem_cons_of_mem m h)
    · rcases ih (k + 1) best ms with h | h
      · exact Or.inl h
      · exact Or.inr (List.mem_cons_of_mem m h)
    · rcases ih k best ms with h | h
      · exact Or.inl h
      · exact Or.inr (List.mem_cons_of_mem m h)

theorem listMax_ge_init (f : Coordinate → EScore) :
    ∀ (l : List Coordinate) (ms : EScore), ms ≤ listMax f l ms := by
  intro l
  induction l with
  | nil => intro ms; exact le_refl ms
  | cons x rest ih =>
    intro ms
    exact le_trans (le_max_left ms (f x)) (ih (max ms (f x)))

theorem le_listMax (f : Coordinate → EScore) :
    ∀ (l : List Coordinate) (ms : EScore) (m : Coordinate),
      m ∈ l → f m ≤ listMax f l ms := by
  intro l
  induction l with
  | nil => intro ms m h; cases h
  | cons x rest ih =>
    intro ms m h
    rcases List.mem_cons.mp h with h | h
    · subst h
      exact le_trans (le_max_right ms (f m)) (listMax_ge_init f rest (max ms (f m)))
    · exact ih (max ms (f x)) m h

theorem rootLoop_score (f : Coordinate → EScore) (coins : Nat → Bool) :
    ∀ (l : List Coordinate) (k : Nat) (best : Coordinate) (ms : EScore),
      (rootLoop f coins l k best ms ∈ l ∧
        f (rootLoop f coins l k best ms) = listMax f l ms) ∨
      (rootLoop f coins l k best ms = best ∧ listMax f l ms = ms) := by
  intro l
  induction l with
  | nil => intro k best ms; exact Or.inr ⟨rfl, rfl⟩
  | cons m rest ih =>
    intro k best ms
    have hstep : listMax f (m :: rest) ms = listMax f rest (max ms (f m)) := rfl
    simp only [rootLoop]
    split_ifs with h1 h2 h3
    · have hmax : max ms (f m) = f m := max_eq_right (le_of_lt h1)
      rcases ih k m (f m) with ⟨hmem, hsc⟩ | ⟨heq, hlm⟩
      · exact Or.inl ⟨List.mem_cons_of_mem m hmem, by rw [hsc, hstep, hmax]⟩
      · refine Or.inl ⟨?_, ?_⟩
        · rw [heq]; exact List.mem_cons_self m rest
        · rw [heq, hstep, hmax, hlm]
    · have hmax : max ms (f m) = ms := by rw [h2]; exact max_self ms
      rcases ih (k + 1) m ms with ⟨hmem, hsc⟩ | ⟨heq, hlm⟩
      · exact Or.inl ⟨List.mem_cons_of_mem m hmem, by rw [hsc, hstep, hmax]⟩
      · refine Or.inl ⟨?_, ?_⟩
        · rw [heq]; exact List.mem_cons_self m rest
        · rw [heq, hstep, hmax, hlm, h2]
    · have hmax : max ms (f m) = ms := by rw [h2]; exact max_self ms
      rcases ih (k + 1) best ms with ⟨hmem, hsc⟩ | ⟨heq, hlm⟩
      · exact Or.inl ⟨List.mem_cons_of_mem m hmem, by rw [hsc, hstep, hmax]⟩
      · exact Or.inr ⟨heq, by rw [hstep, hmax, hlm]⟩
    · have hmax : max ms (f m) = ms := max_eq_left (le_of_not_lt h1)
      rcases ih k best ms with ⟨hmem, hsc⟩ | ⟨heq, hlm⟩
      · exact Or.inl ⟨List.mem_cons_of_mem m hmem, by rw [hsc, hstep, hmax]⟩
      · exact Or.inr ⟨heq, by rw [hstep, hmax, hlm]⟩

/-! ### The search never returns `-Infinity` -/

theorem alphaBetaMax_ge (f : Board → EScore → EScore → EScore) (mover : Player)
    (b : Board) :
    ∀ (l : List Coordinate) (alpha beta me : EScore),
      me ≤ alphaBetaMax f mover b l alpha beta me := by
  intro l
  induction l with
  | nil => intro alpha beta me; exact le_refl me
  | cons m rest ih =>
    intro alpha beta me
    simp only [alphaBetaMax]
    split_ifs with h
    · exact le_max_left me _
    · exact le_trans (le_max_left me _) (ih _ _ _)

theorem alphaBetaMin_pos (f : Board → EScore → EScore → EScore) (mover : Player)
    (b : Board) (hf : ∀ nb alpha beta, ⊥ < f nb alpha beta) :
    ∀ (l : List Coordinate) (alpha beta me : EScore), ⊥ < me →
      ⊥ < alphaBetaMin f mover b l alpha beta me := by
  intro l
  induction l with
  | nil => intro alpha beta me hme; exact hme
  | cons m rest ih =>
    intro alpha beta me hme
    simp only [alphaBetaMin]
    split_ifs with h
    · exact lt_min hme (hf _ _ _)
    · exact ih _ _ _ (lt_min hme (hf _ _ _))

theorem alphaBetaMax_pos (f : Board → EScore → EScore → EScore) (mover : Player)
    (b : Board) (hf : ∀ nb alpha beta, ⊥ < f nb alpha beta) :
    ∀ (l : List Coordinate) (alpha beta : EScore), l ≠ [] →
      ⊥ < alphaBetaMax f mover b l alpha beta ⊥ := by
  intro l
  cases l with
  | nil => intro alpha beta h; exact absurd rfl h
  | cons m rest =>
    intro alpha beta _
    simp only [alphaBetaMax]
    split_ifs with h
    · exact lt_of_lt_of_le (hf _ _ _) (le_max_right _ _)
    · exact lt_of_lt_of_le
        (lt_of_lt_of_le (hf _ _ _) (le_max_right (⊥ : EScore) _))
        (alphaBetaMax_ge _ _ _ _ _ _ _)

theorem sortMovesByWeight_ne_nil (w : Weights) (l : List Coordinate)
    (h : ¬l.length = 0) : sortMovesByWeight w l ≠ [] := by
  intro hnil
  apply h
  have hlen : (sortMovesByWeight w l).length = l.length :=
    List.length_insertionSort _ _
  rw [hnil] at hlen
  exact hlen.symm

theorem minimax_ne_bot (color : Player) (w : Weights) :
    ∀ (depth : Nat) (b : Board) (alpha beta : EScore) (mx : Bool),
      ⊥ < minimax color w depth b alpha beta mx := by
  intro depth
  induction depth with
  | zero =>
    intro b alpha beta mx
    exact WithBot.bot_lt_coe _
  | succ d ih =>
    intro b alpha beta mx
    simp only [minimax]
    by_cases hv : (getValidMoves b (if mx = true then color else color.opp)).length = 0
    · rw [if_pos hv]
      by_cases ho :
          (getValidMoves b (if mx = true then color.opp else color)).length = 0
      · rw [if_pos ho]
        exact WithBot.bot_lt_coe _
      · rw [if_neg ho]
        exact ih b alpha beta (!mx)
    · rw [if_neg hv]
      by_cases hmx : mx = true
      · rw [if_pos hmx]
        exact alphaBetaMax_pos _ color b (fun nb a bt => ih nb a bt false) _
          alpha beta (sortMovesByWeight_ne_nil w _ hv)
      · rw [if_neg hmx]
        exact alphaBetaMin_pos _ color.opp b (fun nb a bt => ih nb a bt true) _
          alpha beta ⊤ bot_lt_top

/-! ### C10: the returned move is always legal -/

theorem rootCandidates_subset (board : Board) (validMoves : List Coordinate)
    (depth : Nat) :
    ∀ m ∈ rootCandidates board validMoves depth, m ∈ validMoves := by
  intro m hm
  simp only [rootCandidates] at hm
  split at hm
  · exact List.mem_of_mem_filter hm
  · exact hm

theorem rootCandidates_ne_nil (board : Board) (validMoves : List Coordinate)
    (depth : Nat) (h : validMoves ≠ []) :
    rootCandidates board validMoves depth ≠ [] := by
  simp only [rootCandidates]
  split
  · rename_i hcond
    exact List.ne_nil_of_length_pos hcond.1
  · exact h

theorem memoryMove_mem (board : Board) (validMoves : List Coordinate)
    (data : LearningData) (mv : Coordinate)
    (h : memoryMove board validMoves data = some mv) : mv ∈ validMoves := by
  unfold memoryMove at h
  split at h
  · rename_i memEntry hl
    split at h
    · rename_i hany
      split at h
      · obtain ⟨m, hm, hmeq⟩ := List.any_eq_true.mp hany
        simp only [Bool.and_eq_true, beq_iff_eq] at hmeq
        have hmv : mv = ⟨memEntry.row, memEntry.col⟩ := (Option.some.inj h).symm
        have hmm : m = (⟨memEntry.row, memEntry.col⟩ : Coordinate) := by
          cases m
          simp only [Coordinate.mk.injEq]
          exact hmeq
        rw [hmv, ← hmm]
        exact hm
      · exact absurd h (by simp)
    · exact absurd h (by simp)
  · exact absurd h (by simp)

/-- C10: for every non-empty `validMoves` the selected move lies in
`validMoves` — a remembered move is returned only after the legality check,
and the searched move is drawn from the (filtered subset of the) supplied
legal moves. -/
theorem C10_getBestMove_legal (board : Board) (validMoves : List Coordinate)
    (data : LearningData) (coins : Nat → Bool) (h : validMoves ≠ []) :
    getBestMove board validMoves data coins ∈ validMoves := by
  cases hm : memoryMove board validMoves data with
  | some mv =>
    have hg : getBestMove board validMoves data coins = mv := by
      simp only [getBestMove, hm]
    rw [hg]
    exact memoryMove_mem board validMoves data mv hm
  | none =>
    have hg : getBestMove board validMoves data coins =
        rootLoop (rootScore board validMoves data) coins
          (rootCandidates board validMoves (searchDepth (emptyCount board)))
          0 (validMoves.headD ⟨0, 0⟩) ⊥ := by
      simp only [getBestMove, hm]
    rw [hg]
    rcases rootLoop_mem (rootScore board validMoves data) coins
        (rootCandidates board validMoves (searchDepth (emptyCount board)))
        0 (validMoves.headD ⟨0, 0⟩) ⊥ with hr | hr
    · rw [hr]
      cases validMoves with
      | nil => exact absurd rfl h
      | cons v vs => exact List.mem_cons_self v vs
    · exact rootCandidates_subset board validMoves (searchDepth (emptyCount board))
        _ hr

theorem C10_getBestMove_legal_witness :
    getBestMove tieBoard tieMoves emptyBrain (fun _ => false) ∈ tieMoves :=
  C10_getBestMove_legal tieBoard tieMoves emptyBrain (fun _ => false) (by decide)

/-! ### C4: root tie-break -/

/-- C4 counterexample: on `tieBoard` the three legal moves all tie at the
terminal score 500000 and all survive the risk filter, yet over the four
equally likely outcomes of the two consumed fair-coin draws the move (4,4)
is returned twice while (3,4) and (4,3) are returned once each — the
selection is 1/2, 1/4, 1/4, not uniform. -/
theorem C4_counterexample :
    getValidMoves tieBoard .black = tieMoves ∧
    memoryMove tieBoard tieMoves emptyBrain = none ∧
    rootCandidates tieBoard tieMoves (searchDepth (emptyCount tieBoard)) = tieMoves ∧
    (rootScore tieBoard tieMoves emptyBrain ⟨3, 4⟩ = toE 500000 ∧
      rootScore tieBoard tieMoves emptyBrain ⟨4, 3⟩ = toE 500000 ∧
      rootScore tieBoard tieMoves emptyBrain ⟨4, 4⟩ = toE 500000) ∧
    getBestMove tieBoard tieMoves emptyBrain (fun _ => false) = ⟨3, 4⟩ ∧
    getBestMove tieBoard tieMoves emptyBrain (fun k => k == 0) = ⟨4, 3⟩ ∧
    getBestMove tieBoard tieMoves emptyBrain (fun k => k == 1) = ⟨4, 4⟩ ∧
    getBestMove tieBoard tieMoves emptyBrain (fun _ => true) = ⟨4, 4⟩ := by
  decide

/-- C4 (amended): the tie-break is a sequential coin-flip replacement (a
later tied move replaces the incumbent with probability 1/2), which is not
uniform for three or more tied moves; but for every outcome of the draws the
returned move is a searched candidate whose final score equals the maximum —
a candidate with a strictly lower score is never returned. -/
theorem C4_root_tiebreak (board : Board) (validMoves : List Coordinate)
    (data : LearningData) (coins : Nat → Bool) (h : validMoves ≠ [])
    (hmem : memoryMove board validMoves data = none) :
    getBestMove board validMoves data coins ∈
      rootCandidates board validMoves (searchDepth (emptyCount board)) ∧
    ∀ m ∈ rootCandidates board validMoves (searchDepth (emptyCount board)),
      rootScore board validMoves data m ≤
        rootScore board validMoves data (getBestMove board validMoves data coins) := by
  have hg : getBestMove board validMoves data coins =
      rootLoop (rootScore board validMoves data) coins
        (rootCandidates board validMoves (searchDepth (emptyCount board)))
        0 (validMoves.headD ⟨0, 0⟩) ⊥ := by
    simp only [getBestMove, hmem]
  rw [hg]
  rcases rootLoop_score (rootScore board validMoves data) coins
      (rootCandidates board validMoves (searchDepth (emptyCount board)))
      0 (validMoves.headD ⟨0, 0⟩) ⊥ with ⟨hmem', hsc⟩ | ⟨_, hlm⟩
  · refine ⟨hmem', ?_⟩
    intro m hm
    rw [hsc]
    exact le_listMax (rootScore board validMoves data) _ ⊥ m hm
  · exfalso
    obtain ⟨m, hm⟩ := List.exists_mem_of_ne_nil _
      (rootCandidates_ne_nil board validMoves (searchDepth (emptyCount board)) h)
    have h1 : rootScore board validMoves data m ≤ ⊥ := by
      rw [← hlm]
      exact le_listMax (rootScore board validMoves data) _ ⊥ m hm
    have h2 : ⊥ < rootScore board validMoves data m :=
      minimax_ne_bot (inferAiColor board validMoves) data.weights
        (searchDepth (emptyCount board) - 1)
        (applyMove board (inferAiColor board validMoves) m.row m.col) ⊥ ⊤ false
    exact absurd h1 (not_le.mpr h2)

theorem C4_root_tiebreak_witness :
    getBestMove tieBoard tieMoves emptyBrain (fun _ => false) ∈
      rootCandidates tieBoard tieMoves (searchDepth (emptyCount tieBoard)) ∧
    ∀ m ∈ rootCandidates tieBoard tieMoves (searchDepth (emptyCount tieBoard)),
      rootScore tieBoard tieMoves emptyBrain m ≤
        rootScore tieBoard tieMoves emptyBrain
          (getBestMove tieBoard tieMoves emptyBrain (fun _ => false)) :=
  C4_root_tiebreak tieBoard tieMoves emptyBrain (fun _ => false)
    (by decide) (by decide)

/-! ### C7: legality characterization -/

theorem cellI_isSome_bounds (b : Board) (r c : Int) (x : Cell)
    (h : cellI b r c = some x) : 0 ≤ r ∧ r < 8 ∧ 0 ≤ c ∧ c < 8 := by
  unfold cellI at h
  split at h
  · assumption
  · exact absurd h (by simp)

/-- The scanning loop of `isValidMove`, characterized: the walk from `(r, c)`
accepts iff some prefix of `k` opponent disks is followed by an own-colour
disk within the fuel (with `k ≥ 1` required unless the opponent flag is
already set). -/
theorem checkLine_iff (b : Board) (color : Player) (dr dc : Int) :
    ∀ (fuel : Nat) (r c : Int) (h : Bool),
      checkLine b color dr dc fuel r c h = true ↔
      ∃ k : Nat, k < fuel ∧ (1 ≤ k ∨ h = true) ∧
        (∀ i : Nat, i < k →
          cellI b (r + (i : Int) * dr) (c + (i : Int) * dc) =
            some (some color.opp)) ∧
        cellI b (r + (k : Int) * dr) (c + (k : Int) * dc) =
          some (some color) := by
  intro fuel
  induction fuel with
  | zero =>
    intro r c h
    simp only [checkLine]
    constructor
    · intro hh
      exact absurd hh (by simp)
    · rintro ⟨k, hk, -⟩
      omega
  | succ n ih =>
    intro r c h
    cases hcell : cellI b r c with
    | none =>
      simp only [checkLine, hcell]
      constructor
      · intro hh
        exact absurd hh (by simp)
      · rintro ⟨k, hkf, hk1, hrun, hterm⟩
        exfalso
        cases k with
        | zero =>
          simp only [Nat.cast_zero, zero_mul, add_zero, hcell] at hterm
          exact absurd hterm (by simp)
        | succ k' =>
          have h0 := hrun 0 (by omega)
          simp only [Nat.cast_zero, zero_mul, add_zero, hcell] at h0
          exact absurd h0 (by simp)
    | some cell =>
      cases cell with
      | none =>
        simp only [checkLine, hcell]
        constructor
        · intro hh
          exact absurd hh (by simp)
        · rintro ⟨k, hkf, hk1, hrun, hterm⟩
          exfalso
          cases k with
          | zero =>
            simp only [Nat.cast_zero, zero_mul, add_zero, hcell] at hterm
            exact absurd hterm (by simp)
          | succ k' =>
            have h0 := hrun 0 (by omega)
            simp only [Nat.cast_zero, zero_mul, add_zero, hcell] at h0
            exact absurd h0 (by simp)
      | some p =>
        simp only [checkLine, hcell]
        by_cases hp : p = color
        · rw [if_neg (not_not_intro hp)]
          constructor
          · intro hh
            refine ⟨0, by omega, Or.inr hh, fun i hi => absurd hi (by omega), ?_⟩
            simp only [Nat.cast_zero, zero_mul, add_zero, hcell, hp]
          · rintro ⟨k, hkf, hk1, hrun, hterm⟩
            cases k with
            | zero =>
              rcases hk1 with hk1 | hk1
              · omega
              · exact hk1
            | succ k' =>
              exfalso
              have h0 := hrun 0 (by omega)
              simp only [Nat.cast_zero, zero_mul, add_zero, hcell, hp] at h0
              have := Option.some.inj (Option.some.inj h0)
              exact Player.opp_ne color this.symm
        · rw [if_pos hp]
          have hpo : p = color.opp := (Player.ne_iff_eq_opp p color).mp hp
          rw [ih (r + dr) (c + dc) true]
          constructor
          · rintro ⟨k', hk'f, -, hrun', hterm'⟩
            refine ⟨k' + 1, by omega, Or.inl (by omega), ?_, ?_⟩
            · intro i hi
              cases i with
              | zero =>
                simp only [Nat.cast_zero, zero_mul, add_zero, hcell, hpo]
              | succ j =>
                have harr : r + ((j + 1 : Nat) : Int) * dr = (r + dr) + (j : Int) * dr := by
                  push_cast
                  ring
                have harc : c + ((j + 1 : Nat) : Int) * dc = (c + dc) + (j : Int) * dc := by
                  push_cast
                  ring
                rw [harr, harc]
                exact hrun' j (by omega)
            · have harr : r + ((k' + 1 : Nat) : Int) * dr = (r + dr) + (k' : Int) * dr := by
                push_cast
                ring
              have harc : c + ((k' + 1 : Nat) : Int) * dc = (c + dc) + (k' : Int) * dc := by
                push_cast
                ring
              rw [harr, harc]
              exact hterm'
          · rintro ⟨k, hkf, hk1, hrun, hterm⟩
            cases k with
            | zero =>
              exfalso
              simp only [Nat.cast_zero, zero_mul, add_zero, hcell] at hterm
              have := Option.some.inj (Option.some.inj hterm)
              exact hp this
            | succ k' =>
              refine ⟨k', by omega, Or.inr rfl, ?_, ?_⟩
              · intro j hj
                have harr : r + ((j + 1 : Nat) : Int) * dr = (r + dr) + (j : Int) * dr := by
                  push_cast
                  ring
                have harc : c + ((j + 1 : Nat) : Int) * dc = (c + dc) + (j : Int) * dc := by
                  push_cast
                  ring
                have := hrun (j + 1) (by omega)
                rw [harr, harc] at this
                exact this
              · have harr : r + ((k' + 1 : Nat) : Int) * dr = (r + dr) + (k' : Int) * dr := by
                  push_cast
                  ring
                have harc : c + ((k' + 1 : Nat) : Int) * dc = (c + dc) + (k' : Int) * dc := by
                  push_cast
                  ring
                rw [harr, harc] at hterm
                exact hterm

/-- On an 8×8 board a capturing run along any of the 8 directions has length
below 8. -/
theorem specLine_k_lt_8 (b : Board) (color : Player) (row col : Int)
    (d : Int × Int) (hd : d ∈ directions) (k : Nat) (hk : 1 ≤ k)
    (hrun : ∀ i : Nat, 1 ≤ i → i ≤ k →
      cellI b (row + (i : Int) * d.1) (col + (i : Int) * d.2) =
        some (some color.opp))
    (hterm : cellI b (row + ((k : Int) + 1) * d.1) (col + ((k : Int) + 1) * d.2) =
      some (some color)) :
    k < 8 := by
  have h1 := cellI_isSome_bounds _ _ _ _ (hrun 1 le_rfl hk)
  have h2 := cellI_isSome_bounds _ _ _ _ hterm
  simp only [directions, List.mem_cons, List.not_mem_nil, or_false] at hd
  rcases hd with rfl | rfl | rfl | rfl | rfl | rfl | rfl | rfl <;>
    (push_cast at h1 h2; omega)

/-- One direction of the spec's legality wording coincides with the source's
scanning loop started on the adjacent cell with fuel 8. -/
theorem specLine_iff_checkLine (b : Board) (color : Player) (row col : Int)
    (d : Int × Int) (hd : d ∈ directions) :
    checkLine b color d.1 d.2 8 (row + d.1) (col + d.2) false = true ↔
      specLineCapture b color row col d.1 d.2 := by
  rw [checkLine_iff]
  unfold specLineCapture
  constructor
  · rintro ⟨k, hk8, hk1, hrun, hterm⟩
    have hk1' : 1 ≤ k := by
      rcases hk1 with hk1 | hk1
      · exact hk1
      · exact absurd hk1 (by simp)
    refine ⟨k, hk1', ?_, ?_⟩
    · intro i hi1 hik
      have harr : (row + d.1) + ((i - 1 : Nat) : Int) * d.1 = row + (i : Int) * d.1 := by
        have hcast : ((i - 1 : Nat) : Int) = (i : Int) - 1 := by omega
        rw [hcast]
        ring
      have harc : (col + d.2) + ((i - 1 : Nat) : Int) * d.2 = col + (i : Int) * d.2 := by
        have hcast : ((i - 1 : Nat) : Int) = (i : Int) - 1 := by omega
        rw [hcast]
        ring
      have := hrun (i - 1) (by omega)
      rw [harr, harc] at this
      exact this
    · have harr : (row + d.1) + (k : Int) * d.1 = row + ((k : Int) + 1) * d.1 := by
        ring
      have harc : (col + d.2) + (k : Int) * d.2 = col + ((k : Int) + 1) * d.2 := by
        ring
      rw [harr, harc] at hterm
      exact hterm
  · rintro ⟨k, hk1, hrun, hterm⟩
    refine ⟨k, specLine_k_lt_8 b color row col d hd k hk1 hrun hterm,
      Or.inl hk1, ?_, ?_⟩
    · intro i hi
      have harr : (row + d.1) + ((i : Nat) : Int) * d.1 = row + ((i + 1 : Nat) : Int) * d.1 := by
        push_cast
        ring
      have harc : (col + d.2) + ((i : Nat) : Int) * d.2 = col + ((i + 1 : Nat) : Int) * d.2 := by
        push_cast
        ring
      rw [harr, harc]
      exact hrun (i + 1) (by omega) (by omega)
    · have harr : (row + d.1) + (k : Int) * d.1 = row + ((k : Int) + 1) * d.1 := by
        ring
      have harc : (col + d.2) + (k : Int) * d.2 = col + ((k : Int) + 1) * d.2 := by
        ring
      rw [harr, harc]
      exact hterm

theorem mem_getValidMoves (b : Board) (color : Player) (row col : Fin 8) :
    (⟨row, col⟩ : Coordinate) ∈ getValidMoves b color ↔
      isValidMove b color row col = true := by
  unfold getValidMoves
  simp only [List.mem_flatMap, List.mem_filterMap, List.mem_finRange, true_and]
  constructor
  · rintro ⟨r, c, hc⟩
    split at hc
    · rename_i hv
      have hinj := Option.some.inj hc
      rw [Coordinate.mk.injEq] at hinj
      rw [← hinj.1, ← hinj.2]
      exact hv
    · exact absurd hc (by simp)
  · intro hv
    exact ⟨row, col, by rw [if_pos hv]⟩

/-- C7: a move `(row, col)` is accepted by `isValidMove` iff the cell is
empty and one of the 8 directions holds a non-empty contiguous run of
opponent disks, starting adjacent to the cell, terminated by an own-colour
disk before the board edge or an empty cell; and `getValidMoves` returns
exactly the cells satisfying this predicate. -/
theorem C7_legal_move_characterization (b : Board) (color : Player)
    (row col : Fin 8) :
    (isValidMove b color row col = true ↔ specLegalMove b color row col) ∧
    ((⟨row, col⟩ : Coordinate) ∈ getValidMoves b color ↔
      specLegalMove b color row col) := by
  have hmain : isValidMove b color row col = true ↔ specLegalMove b color row col := by
    unfold isValidMove specLegalMove
    by_cases hocc : b row col = none
    · rw [if_neg (not_not_intro hocc), List.any_eq_true]
      constructor
      · rintro ⟨d, hd, hchk⟩
        exact ⟨hocc, d, hd,
          (specLine_iff_checkLine b color (row.val : Int) (col.val : Int) d hd).mp hchk⟩
      · rintro ⟨-, d, hd, hspec⟩
        exact ⟨d, hd,
          (specLine_iff_checkLine b color (row.val : Int) (col.val : Int) d hd).mpr hspec⟩
    · rw [if_pos hocc]
      constructor
      · intro hh
        exact absurd hh (by simp)
      · rintro ⟨h1, -⟩
        exact absurd h1 hocc
  exact ⟨hmain, (mem_getValidMoves b color row col).trans hmain⟩

end NeuroReversi
